/-
Verification of the file chunking / merging tool (basicFileChunkingMerging/program.cpp).

Shallow embedding conventions:
  * A file's content is a list: bytes as an arbitrary type for the binary
    pipeline (`List α`), characters (`List Char`) for the line pipeline.
  * The filesystem seen by a joiner is a partial map from part index to
    content (`Nat → Option (List _)`); part names are built by `partName`
    exactly as the source builds them (prefix ++ decimal counter ++ ext),
    and the counter-to-name map is injective for a fixed prefix/extension,
    so indexing the disk by the counter is faithful.
  * `std::getline` reads up to a bare line feed and drops it; text-mode
    translation is not part of the C++ language, so the embedding models
    the byte-exact (POSIX) behaviour: a carriage return stays in the line.
  * The `while (!fileStream.eof())` loop of `chunkFile` is embedded with
    explicit fuel: `none` for every fuel value means the loop does not
    terminate.  The eof bit is set by `read` exactly when fewer than
    `chunkSize` characters remained.
-/
import Mathlib

namespace ChunkMerge

/-- Lines as produced by repeated `std::getline(stream, line)` with the
default delimiter: split at each line feed, the delimiter is consumed and
not stored, a final segment without a trailing line feed is still a line,
and a trailing line feed does not create an extra empty line. -/
def splitLines : List Char → List (List Char)
  | [] => []
  | c :: cs =>
    if c = '\n' then [] :: splitLines cs
    else
      match splitLines cs with
      | [] => [[c]]
      | l :: ls => (c :: l) :: ls

/-- Rendering of `output << line << "\n"` repeated over a list of lines. -/
def unlines (ls : List (List Char)) : List Char :=
  (ls.map (fun l => l ++ ['\n'])).flatten

/-- Decimal digits of a counter, as written by `std::to_string`. -/
def natChars (n : Nat) : List Char :=
  (Nat.repr n).data

/-- `chunkName + to_string(counter) + originalExtension`, the part file
name built by `chunkFile` (and, with `ext = ".csv"`, by `chunkCSV`). -/
def partName (pre : List Char) (i : Nat) (ext : List Char) : List Char :=
  pre ++ natChars i ++ ext

/-- `fullFilePath.substr(fullFilePath.find_last_of("."))`: the suffix of
the path starting at its last dot, empty when there is no dot. -/
def extOf : List Char → List Char
  | [] => []
  | c :: cs =>
    if '.' ∈ cs then extOf cs
    else if c = '.' then c :: cs
    else extOf cs

/-- The `while (!fileStream.eof())` loop body of `chunkFile`.  State:
remaining unread bytes, the stream's eof bit, and the part counter.
`canOpen i` tells whether the part file for counter value `i` can be
created; when it cannot, the source skips the read and the counter
increment and retries the same iteration.  Each successful iteration
reads `min T rem.length` bytes (`gcount` of `read(buffer, T)`), writes
them to the part, and the eof bit becomes set exactly when fewer than `T`
bytes remained.  Result: the (name, content) pairs of the parts written in
order, and the final counter; `none` means the fuel was exhausted, i.e.
the loop ran longer than the given bound. -/
def chunkFileLoop {α : Type} (pre ext : List Char) (T : Nat) (canOpen : Nat → Bool) :
    Nat → List α → Bool → Nat → Option (List (List Char × List α) × Nat)
  | 0, _, _, _ => none
  | fuel + 1, rem, eofbit, counter =>
    if eofbit then
      some ([], counter)
    else if canOpen counter then
      match chunkFileLoop pre ext T canOpen fuel (rem.drop T)
          (decide (rem.length < T)) (counter + 1) with
      | none => none
      | some (ps, c) => some ((partName pre counter ext, rem.take T) :: ps, c)
    else
      chunkFileLoop pre ext T canOpen fuel rem eofbit counter

/-- `chunkFile` on a source that opens, with every part file creatable:
the loop starts with counter 1 and a clear eof bit, the extension is taken
from the source path, and on termination the tool reports `counter - 1`
files created.  The fuel `src.length + 2` is proven sufficient below for
every positive chunk size. -/
def chunkFileRun {α : Type} (path pre : List Char) (T : Nat) (src : List α) :
    Option (List (List Char × List α) × Nat) :=
  (chunkFileLoop pre (extOf path) T (fun _ => true) (src.length + 2) src false 1).map
    (fun r => (r.1, r.2 - 1))

/-- The probing loop of `joinFile`: try part index `counter`; if the file
exists append its whole content to the output and continue with the next
index, otherwise stop (normal termination, reported as success).  `none`
means fuel exhaustion. -/
def joinFileLoop {α : Type} (disk : Nat → Option (List α)) :
    Nat → Nat → Option (List α)
  | 0, _ => none
  | fuel + 1, counter =>
    match disk counter with
    | none => some []
    | some content =>
      match joinFileLoop disk fuel (counter + 1) with
      | none => none
      | some rest => some (content ++ rest)

/-- `joinFile` over a gapless part set listed in order: part `i` is the
`i`-th element (probing starts at counter 1). -/
def joinFileRun {α : Type} (parts : List (List α)) : Option (List α) :=
  joinFileLoop (fun i => parts.get? (i - 1)) (parts.length + 1) 1

/-- The per-line loop of `chunkCSV` after the header was read.  State: the
data lines of the currently open part (`cur`, never empty once the loop
runs), `currentSize` (the sum of the stored lines' lengths, newlines and
header excluded), and the remaining data lines.  A new part is started
exactly when `currentSize == 0 || currentSize + line.size() > chunkSize`.
All part creations are assumed to succeed.  Result: the data-line groups
of the parts, in order. -/
def csvGo (T : Nat) (cur : List (List Char)) (size : Nat) :
    List (List Char) → List (List (List Char))
  | [] => [cur]
  | l :: ls =>
    if size = 0 ∨ size + l.length > T then
      cur :: csvGo T [l] l.length ls
    else
      csvGo T (cur ++ [l]) (size + l.length) ls

/-- Data-line groups produced by `chunkCSV` for the given data lines: the
first data line always opens part 1 (`currentSize` starts at 0); no data
lines means no part is ever created. -/
def chunkCSVGroups (T : Nat) : List (List Char) → List (List (List Char))
  | [] => []
  | l :: ls => csvGo T [l] l.length ls

/-- `chunkCSV` on a source that opens, all part creations succeeding:
read the header with one `getline`; if that fails (empty source) no part
is made; otherwise group the data lines, each part file's content being
the header followed by its group, every line rendered with one trailing
line feed.  The second component is the reported file count
(`counter - 1`). -/
def chunkCSV (T : Nat) (src : List Char) : List (List Char) × Nat :=
  match splitLines src with
  | [] => ([], 0)
  | hdr :: ds =>
    ((chunkCSVGroups T ds).map (fun g => unlines (hdr :: g)),
      (chunkCSVGroups T ds).length)

/-- The probing loop of `joinCSV`: for each existing part read its first
line with `getline` — written to the output only while `isFirstChunk` is
still set, which is cleared only when that `getline` succeeds — then copy
every remaining line; stop at the first missing part index. -/
def joinCSVLoop (disk : Nat → Option (List Char)) :
    Nat → Nat → Bool → Option (List Char)
  | 0, _, _ => none
  | fuel + 1, counter, isFirst =>
    match disk counter with
    | none => some []
    | some content =>
      match joinCSVLoop disk fuel (counter + 1)
          (isFirst && (splitLines content).isEmpty) with
      | none => none
      | some rest =>
        some (unlines (if isFirst then splitLines content
                       else (splitLines content).drop 1) ++ rest)

/-- `joinCSV` over a gapless part set listed in order, probing from 1 with
`isFirstChunk` set. -/
def joinCSVRun (parts : List (List Char)) : Option (List Char) :=
  joinCSVLoop (fun i => parts.get? (i - 1)) (parts.length + 1) 1 true

/-- Pure description of one `joinCSVLoop` run over the listed parts. -/
def joinCSVList : Bool → List (List Char) → List Char
  | _, [] => []
  | isFirst, p :: ps =>
    unlines (if isFirst then splitLines p else (splitLines p).drop 1) ++
      joinCSVList (isFirst && (splitLines p).isEmpty) ps

/-- Pure description of the parts `chunkFileLoop` writes when every part
file opens, starting at counter `c`: full `T`-byte reads while at least
`T` bytes remain, then one final short (possibly empty) read that sets the
eof bit.  The degenerate `T = 0` case of this description is irrelevant:
for `T = 0` the source loop never terminates, and every theorem below
assumes `1 ≤ T`. -/
def chunkPartsN {α : Type} (pre ext : List Char) (T : Nat)
    (src : List α) (c : Nat) : List (List Char × List α) :=
  if T ≤ src.length ∧ 1 ≤ T then
    (partName pre c ext, src.take T) :: chunkPartsN pre ext T (src.drop T) (c + 1)
  else
    [(partName pre c ext, src)]
termination_by src.length
decreasing_by simp only [List.length_drop]; omega

/-- Modelled from the claim wording of C8 (not from the source): continue
the current part while the threshold is not exceeded; the
part-has-no-data-line-yet trigger is represented by starting a fresh group
at `claimSpecGroups`, so inside a group only the overflow test stops it. -/
def claimTake (T : Nat) (size : Nat) :
    List (List Char) → List (List Char) × List (List Char)
  | [] => ([], [])
  | l :: ls =>
    if size + l.length > T then ([], l :: ls)
    else
      ((claimTake T (size + l.length) ls).1.cons l, (claimTake T (size + l.length) ls).2)

theorem claimTake_snd_length (T size : Nat) (ls : List (List Char)) :
    (claimTake T size ls).2.length ≤ ls.length := by
  induction ls generalizing size with
  | nil => simp [claimTake]
  | cons l ls ih =>
    simp only [claimTake]
    by_cases h : size + l.length > T
    · simp [h]
    · simp only [h, if_neg, if_false]
      exact Nat.le_succ_of_le (ih (size + l.length))

/-- Modelled from the claim wording of C8 (not from the source): a new
part is opened exactly when the current part has no data line yet or when
adding the line's length to the accumulated size would exceed the
threshold. -/
def claimSpecGroups (T : Nat) : List (List Char) → List (List (List Char))
  | [] => []
  | l :: ls =>
    ((claimTake T l.length ls).1.cons l) ::
      claimSpecGroups T (claimTake T l.length ls).2
termination_by ls => ls.length
decreasing_by
  exact Nat.lt_succ_of_le (claimTake_snd_length _ _ _)

/-- Total data size of a part's group, as accumulated by `currentSize`:
line lengths only, header and newline characters excluded. -/
def sumLen (g : List (List Char)) : Nat :=
  (g.map List.length).sum

theorem splitLines_no_newline :
    ∀ s : List Char, ∀ l ∈ splitLines s, ('\n' : Char) ∉ l := by
  intro s
  induction s with
  | nil => simp [splitLines]
  | cons c cs ih =>
    intro l hl
    by_cases hc : c = '\n'
    · rw [splitLines, if_pos hc] at hl
      rcases List.mem_cons.mp hl with hl | hl
      · simp [hl]
      · exact ih l hl
    · rw [splitLines, if_neg hc] at hl
      cases h : splitLines cs with
      | nil =>
        rw [h] at hl
        simp only [List.mem_singleton] at hl
        subst hl
        simp only [List.mem_singleton]
        exact fun h1 => hc h1.symm
      | cons l0 ls0 =>
        rw [h] at hl
        rcases List.mem_cons.mp hl with hl | hl
        · subst hl
          intro hmem
          rcases List.mem_cons.mp hmem with h1 | h1
          · exact hc h1.symm
          · exact ih l0 (h ▸ List.mem_cons_self l0 ls0) h1
        · exact ih l (h ▸ List.mem_cons_of_mem l0 hl)

theorem unlines_append (a b : List (List Char)) :
    unlines (a ++ b) = unlines a ++ unlines b := by
  simp [unlines]

theorem splitLines_line_append (l s : List Char) (hl : ('\n' : Char) ∉ l) :
    splitLines (l ++ '\n' :: s) = l :: splitLines s := by
  induction l with
  | nil => simp [splitLines]
  | cons c l ih =>
    have hc : c ≠ '\n' := fun h => hl (h ▸ List.mem_cons_self c l)
    have hl' : ('\n' : Char) ∉ l := fun h => hl (List.mem_cons_of_mem c h)
    simp only [List.cons_append, splitLines, if_neg hc, List.append_eq, ih hl']

theorem splitLines_unlines (ls : List (List Char))
    (h : ∀ l ∈ ls, ('\n' : Char) ∉ l) :
    splitLines (unlines ls) = ls := by
  induction ls with
  | nil => simp [unlines, splitLines]
  | cons l ls ih =>
    have hl : ('\n' : Char) ∉ l := h l (List.mem_cons_self l ls)
    have : unlines (l :: ls) = l ++ '\n' :: unlines ls := by
      simp [unlines]
    rw [this, splitLines_line_append l _ hl,
      ih (fun x hx => h x (List.mem_cons_of_mem l hx))]

theorem unlines_ne_nil_of_mem (ls : List (List Char)) (hne : ls ≠ []) :
    unlines ls ≠ [] := by
  cases ls with
  | nil => exact absurd rfl hne
  | cons l ls => simp [unlines]

theorem csvGo_flatten (T : Nat) :
    ∀ (ls : List (List Char)) (cur : List (List Char)) (size : Nat),
      (csvGo T cur size ls).flatten = cur ++ ls := by
  intro ls
  induction ls with
  | nil => intro cur size; simp [csvGo]
  | cons l ls ih =>
    intro cur size
    by_cases h : size = 0 ∨ size + l.length > T
    · rw [csvGo, if_pos h]
      simp [ih]
    · rw [csvGo, if_neg h]
      simp [ih]

theorem chunkCSVGroups_flatten (T : Nat) (ds : List (List Char)) :
    (chunkCSVGroups T ds).flatten = ds := by
  cases ds with
  | nil => simp [chunkCSVGroups]
  | cons l ls => simp [chunkCSVGroups, csvGo_flatten]

theorem csvGo_ne_nil (T : Nat) :
    ∀ (ls cur : List (List Char)) (size : Nat), csvGo T cur size ls ≠ [] := by
  intro ls
  induction ls with
  | nil => intro cur size; simp [csvGo]
  | cons l ls ih =>
    intro cur size
    by_cases h : size = 0 ∨ size + l.length > T
    · rw [csvGo, if_pos h]; simp
    · rw [csvGo, if_neg h]; exact ih _ _

theorem csvGo_long (T : Nat) :
    ∀ (ls cur : List (List Char)) (size : Nat),
      size = sumLen cur →
      (∀ l ∈ cur, T < l.length → cur = [l]) →
      ∀ g ∈ csvGo T cur size ls, ∀ l ∈ g, T < l.length → g = [l] := by
  intro ls
  induction ls with
  | nil =>
    intro cur size _ hcur g hg
    rw [csvGo] at hg
    simp only [List.mem_singleton] at hg
    subst hg
    exact hcur
  | cons l ls ih =>
    intro cur size hsize hcur g hg
    by_cases h : size = 0 ∨ size + l.length > T
    · rw [csvGo, if_pos h] at hg
      rcases List.mem_cons.mp hg with hg | hg
      · subst hg; exact hcur
      · refine ih [l] l.length (by simp [sumLen]) ?_ g hg
        intro x hx _
        simp only [List.mem_singleton] at hx
        rw [hx]
    · rw [csvGo, if_neg h] at hg
      push_neg at h
      refine ih (cur ++ [l]) (size + l.length) (by simp [sumLen, hsize]) ?_ g hg
      intro x hx hxlong
      rcases List.mem_append.mp hx with hx | hx
      · exfalso
        have hc := hcur x hx hxlong
        have : size = x.length := by rw [hsize, hc]; simp [sumLen]
        omega
      · exfalso
        simp only [List.mem_singleton] at hx
        subst hx
        omega

theorem csvGo_bound (T : Nat) :
    ∀ (ls cur : List (List Char)) (size : Nat),
      size = sumLen cur →
      (sumLen cur ≤ T ∨ ∃ l, cur = [l]) →
      ∀ g ∈ csvGo T cur size ls, sumLen g ≤ T ∨ ∃ l, g = [l] := by
  intro ls
  induction ls with
  | nil =>
    intro cur size _ hcur g hg
    rw [csvGo] at hg
    simp only [List.mem_singleton] at hg
    subst hg
    exact hcur
  | cons l ls ih =>
    intro cur size hsize hcur g hg
    by_cases h : size = 0 ∨ size + l.length > T
    · rw [csvGo, if_pos h] at hg
      rcases List.mem_cons.mp hg with hg | hg
      · subst hg; exact hcur
      · exact ih [l] l.length (by simp [sumLen]) (Or.inr ⟨l, rfl⟩) g hg
    · rw [csvGo, if_neg h] at hg
      push_neg at h
      refine ih (cur ++ [l]) (size + l.length) (by simp [sumLen, hsize]) ?_ g hg
      left
      have : sumLen (cur ++ [l]) = size + l.length := by
        rw [hsize]; simp [sumLen]
      omega

theorem joinFileLoop_list {α : Type} :
    ∀ (ps : List (List α)) (disk : Nat → Option (List α)) (c fuel : Nat),
      ps.length < fuel → (∀ j, disk (c + j) = ps.get? j) →
      joinFileLoop disk fuel c = some ps.flatten := by
  intro ps
  induction ps with
  | nil =>
    intro disk c fuel hfuel hdisk
    cases fuel with
    | zero => omega
    | succ fuel =>
      have h0 := hdisk 0
      simp only [List.get?] at h0
      rw [joinFileLoop, Nat.add_zero] at *
      rw [h0]
      rfl
  | cons p ps ih =>
    intro disk c fuel hfuel hdisk
    cases fuel with
    | zero => simp at hfuel
    | succ fuel =>
      have h0 := hdisk 0
      simp only [List.get?] at h0
      rw [Nat.add_zero] at h0
      have hrest : joinFileLoop disk fuel (c + 1) = some ps.flatten := by
        refine ih disk (c + 1) fuel (by simpa using hfuel) ?_
        intro j
        have := hdisk (j + 1)
        simpa [Nat.add_assoc, Nat.add_comm 1 j] using this
      simp only [joinFileLoop, h0, hrest]
      rfl

theorem joinFileRun_eq {α : Type} (ps : List (List α)) :
    joinFileRun ps = some ps.flatten := by
  refine joinFileLoop_list ps _ 1 (ps.length + 1) (Nat.lt_succ_self _) ?_
  intro j
  simp [Nat.add_comm 1 j]

theorem joinCSVLoop_list :
    ∀ (ps : List (List Char)) (disk : Nat → Option (List Char))
      (c fuel : Nat) (isFirst : Bool),
      ps.length < fuel → (∀ j, disk (c + j) = ps.get? j) →
      joinCSVLoop disk fuel c isFirst = some (joinCSVList isFirst ps) := by
  intro ps
  induction ps with
  | nil =>
    intro disk c fuel isFirst hfuel hdisk
    cases fuel with
    | zero => omega
    | succ fuel =>
      have h0 := hdisk 0
      simp only [List.get?] at h0
      rw [Nat.add_zero] at h0
      rw [joinCSVLoop, h0]
      rfl
  | cons p ps ih =>
    intro disk c fuel isFirst hfuel hdisk
    cases fuel with
    | zero => simp at hfuel
    | succ fuel =>
      have h0 := hdisk 0
      simp only [List.get?] at h0
      rw [Nat.add_zero] at h0
      have hrest : joinCSVLoop disk fuel (c + 1)
          (isFirst && (splitLines p).isEmpty) =
          some (joinCSVList (isFirst && (splitLines p).isEmpty) ps) := by
        refine ih disk (c + 1) fuel _ (by simpa using hfuel) ?_
        intro j
        have := hdisk (j + 1)
        simpa [Nat.add_assoc, Nat.add_comm 1 j] using this
      simp only [joinCSVLoop, h0, hrest]
      rfl

theorem joinCSVRun_eq (ps : List (List Char)) :
    joinCSVRun ps = some (joinCSVList true ps) := by
  refine joinCSVLoop_list ps _ 1 (ps.length + 1) true (Nat.lt_succ_self _) ?_
  intro j
  simp [Nat.add_comm 1 j]

theorem joinCSVList_skips_headers (hdr : List Char) (hhdr : ('\n' : Char) ∉ hdr) :
    ∀ gs : List (List (List Char)),
      (∀ g ∈ gs, ∀ l ∈ g, ('\n' : Char) ∉ l) →
      joinCSVList false (gs.map fun g => unlines (hdr :: g)) =
        unlines gs.flatten := by
  intro gs
  induction gs with
  | nil => intro _; simp [joinCSVList, unlines]
  | cons g gs ih =>
    intro hlines
    have hsplit : splitLines (unlines (hdr :: g)) = hdr :: g := by
      refine splitLines_unlines _ ?_
      intro l hl
      rcases List.mem_cons.mp hl with hl | hl
      · exact hl ▸ hhdr
      · exact hlines g (List.mem_cons_self g gs) l hl
    simp only [List.map_cons, joinCSVList, hsplit, Bool.false_and, if_false,
      Bool.false_eq_true]
    rw [ih (fun x hx => hlines x (List.mem_cons_of_mem g hx))]
    simp [unlines_append]

theorem chunkFileLoop_spec {α : Type} (pre ext : List Char) (T : Nat) (hT : 1 ≤ T) :
    ∀ (fuel : Nat) (rem : List α) (c : Nat), rem.length + 2 ≤ fuel →
      chunkFileLoop pre ext T (fun _ => true) fuel rem false c =
        some (chunkPartsN pre ext T rem c,
          c + (chunkPartsN pre ext T rem c).length) := by
  intro fuel
  induction fuel with
  | zero => intro rem c h; omega
  | succ fuel ih =>
    intro rem c hfuel
    by_cases hlen : rem.length < T
    · have hdec : decide (rem.length < T) = true := decide_eq_true hlen
      cases fuel with
      | zero => omega
      | succ fuel =>
        rw [chunkFileLoop]
        simp only [Bool.false_eq_true, if_false, if_true, hdec]
        rw [chunkFileLoop]
        simp only [if_true]
        have htake : rem.take T = rem := List.take_of_length_le (Nat.le_of_lt hlen)
        have hparts : chunkPartsN pre ext T rem c = [(partName pre c ext, rem)] := by
          rw [chunkPartsN]
          rw [if_neg]
          intro h
          omega
        rw [htake, hparts]
        rfl
    · push_neg at hlen
      have hdec : decide (rem.length < T) = false :=
        decide_eq_false (Nat.not_lt.mpr hlen)
      have hdlen : (rem.drop T).length + 2 ≤ fuel := by
        simp only [List.length_drop]
        omega
      rw [chunkFileLoop]
      simp only [Bool.false_eq_true, if_false, if_true, hdec]
      rw [ih (rem.drop T) (c + 1) hdlen]
      have hparts : chunkPartsN pre ext T rem c =
          (partName pre c ext, rem.take T) ::
            chunkPartsN pre ext T (rem.drop T) (c + 1) := by
        rw [chunkPartsN, if_pos ⟨hlen, hT⟩]
      rw [hparts]
      simp only [List.length_cons]
      have harith : c + 1 + (chunkPartsN pre ext T (rem.drop T) (c + 1)).length =
          c + ((chunkPartsN pre ext T (rem.drop T) (c + 1)).length + 1) := by
        omega
      rw [harith]

theorem chunkPartsN_snd_flatten {α : Type} (pre ext : List Char) (T : Nat)
    (hT : 1 ≤ T) :
    ∀ (n : Nat) (src : List α) (c : Nat), src.length ≤ n →
      ((chunkPartsN pre ext T src c).map Prod.snd).flatten = src := by
  intro n
  induction n with
  | zero =>
    intro src c hn
    have hsrc : src = [] := List.length_eq_zero.mp (Nat.le_zero.mp hn)
    subst hsrc
    rw [chunkPartsN, if_neg (by intro h; exact absurd h.1 (by omega))]
    simp
  | succ n ih =>
    intro src c hn
    by_cases hle : T ≤ src.length
    · rw [chunkPartsN, if_pos ⟨hle, hT⟩]
      simp only [List.map_cons, List.flatten_cons]
      rw [ih (src.drop T) (c + 1) (by simp only [List.length_drop]; omega)]
      exact List.take_append_drop T src
    · rw [chunkPartsN, if_neg (fun h => hle h.1)]
      simp

theorem chunkPartsN_length {α : Type} (pre ext : List Char) (T : Nat)
    (hT : 1 ≤ T) :
    ∀ (n : Nat) (src : List α) (c : Nat), src.length ≤ n →
      (chunkPartsN pre ext T src c).length = src.length / T + 1 := by
  intro n
  induction n with
  | zero =>
    intro src c hn
    have hsrc : src = [] := List.length_eq_zero.mp (Nat.le_zero.mp hn)
    subst hsrc
    rw [chunkPartsN, if_neg (by intro h; exact absurd h.1 (by omega))]
    simp
  | succ n ih =>
    intro src c hn
    by_cases hle : T ≤ src.length
    · rw [chunkPartsN, if_pos ⟨hle, hT⟩]
      simp only [List.length_cons]
      rw [ih (src.drop T) (c + 1) (by simp only [List.length_drop]; omega)]
      rw [Nat.div_eq_sub_div (by omega) hle]
      simp [List.length_drop]
    · rw [chunkPartsN, if_neg (fun h => hle h.1)]
      push_neg at hle
      simp [Nat.div_eq_of_lt hle]

theorem csvGo_claimSpec (T : Nat) :
    ∀ (ls cur : List (List Char)) (size : Nat), 1 ≤ size →
      (∀ l ∈ ls, l ≠ []) →
      csvGo T cur size ls =
        (cur ++ (claimTake T size ls).1) ::
          claimSpecGroups T (claimTake T size ls).2 := by
  intro ls
  induction ls with
  | nil =>
    intro cur size _ _
    simp [csvGo, claimTake, claimSpecGroups]
  | cons l ls ih =>
    intro cur size hsize hne
    have hlne : l ≠ [] := hne l (List.mem_cons_self l ls)
    have hl1 : 1 ≤ l.length := by
      cases l with
      | nil => exact absurd rfl hlne
      | cons a as => simp
    have hne' : ∀ x ∈ ls, x ≠ [] := fun x hx => hne x (List.mem_cons_of_mem l hx)
    by_cases h : size + l.length > T
    · have hcond : size = 0 ∨ size + l.length > T := Or.inr h
      rw [csvGo, if_pos hcond, claimTake, if_pos h]
      rw [claimSpecGroups]
      rw [ih [l] l.length hl1 hne']
      simp
    · have hcond : ¬(size = 0 ∨ size + l.length > T) := by
        push_neg
        exact ⟨by omega, by omega⟩
      rw [csvGo, if_neg hcond, claimTake, if_neg h]
      rw [ih (cur ++ [l]) (size + l.length) (by omega) hne']
      simp

theorem joinFileLoop_gap {α : Type} :
    ∀ (m : Nat) (disk : Nat → Option (List α)) (f : Nat → List α) (c fuel : Nat),
      m < fuel → (∀ j, j < m → disk (c + j) = some (f j)) →
      disk (c + m) = none →
      joinFileLoop disk fuel c = some (((List.range m).map f).flatten) := by
  intro m
  induction m with
  | zero =>
    intro disk f c fuel hfuel _ hmiss
    cases fuel with
    | zero => omega
    | succ fuel =>
      rw [Nat.add_zero] at hmiss
      rw [joinFileLoop, hmiss]
      simp
  | succ m ih =>
    intro disk f c fuel hfuel hpresent hmiss
    cases fuel with
    | zero => omega
    | succ fuel =>
      have h0 : disk c = some (f 0) := by
        have := hpresent 0 (Nat.succ_pos m)
        rwa [Nat.add_zero] at this
      have hrest : joinFileLoop disk fuel (c + 1) =
          some (((List.range m).map (fun j => f (j + 1))).flatten) := by
        refine ih disk (fun j => f (j + 1)) (c + 1) fuel (by omega) ?_ ?_
        · intro j hj
          have := hpresent (j + 1) (by omega)
          rwa [show c + 1 + j = c + (j + 1) by omega]
        · rwa [show c + 1 + m = c + (m + 1) by omega]
      simp only [joinFileLoop, h0, hrest]
      have : ((List.range (m + 1)).map f).flatten =
          f 0 ++ ((List.range m).map (fun j => f (j + 1))).flatten := by
        rw [List.range_succ_eq_map]
        simp only [List.map_cons, List.map_map, List.flatten_cons]
        rfl
      rw [this]

/-- C1: for every non-empty binary source and every chunk size of at least
1 byte, `chunkFile` terminates with a part set, and `joinFile` run on that
part set (same prefix and extension, parts gapless in counter order)
reconstructs the source byte sequence exactly. -/
theorem binary_roundtrip {α : Type} (path pre : List Char) (T : Nat)
    (src : List α) (hT : 1 ≤ T) (hsrc : src ≠ []) :
    ∃ parts count, chunkFileRun path pre T src = some (parts, count) ∧
      joinFileRun (parts.map Prod.snd) = some src := by
  refine ⟨chunkPartsN pre (extOf path) T src 1,
    1 + (chunkPartsN pre (extOf path) T src 1).length - 1, ?_, ?_⟩
  · rw [chunkFileRun,
      chunkFileLoop_spec pre (extOf path) T hT (src.length + 2) src 1 (Nat.le_refl _)]
    rfl
  · rw [joinFileRun_eq,
      chunkPartsN_snd_flatten pre (extOf path) T hT src.length src 1 (Nat.le_refl _)]

/-- C2: for every line-oriented source with a header line and at least one
data line, and every threshold of at least 1, `joinCSV` run on the part
set produced by `chunkCSV` yields a file whose lines are exactly the
header once, followed by all data lines in their original order. -/
theorem csv_roundtrip (T : Nat) (src hdr : List Char) (ds : List (List Char))
    (hT : 1 ≤ T) (hsplit : splitLines src = hdr :: ds) (hds : ds ≠ []) :
    ∃ out, joinCSVRun (chunkCSV T src).1 = some out ∧
      splitLines out = hdr :: ds := by
  have hhdr : ('\n' : Char) ∉ hdr :=
    splitLines_no_newline src hdr (hsplit ▸ List.mem_cons_self hdr ds)
  have hdls : ∀ l ∈ ds, ('\n' : Char) ∉ l := fun l hl =>
    splitLines_no_newline src l (hsplit ▸ List.mem_cons_of_mem hdr hl)
  have hchunk : (chunkCSV T src).1 =
      (chunkCSVGroups T ds).map (fun g => unlines (hdr :: g)) := by
    rw [chunkCSV, hsplit]
  have hflat : (chunkCSVGroups T ds).flatten = ds := chunkCSVGroups_flatten T ds
  have hglines : ∀ g ∈ chunkCSVGroups T ds, ∀ l ∈ g, ('\n' : Char) ∉ l :=
    fun g hg l hl => hdls l (hflat ▸ List.mem_flatten.mpr ⟨g, hg, hl⟩)
  obtain ⟨d, rest, rfl⟩ : ∃ d rest, ds = d :: rest := by
    cases ds with
    | nil => exact absurd rfl hds
    | cons d rest => exact ⟨d, rest, rfl⟩
  obtain ⟨g, gs', hgs⟩ : ∃ g gs',
      chunkCSVGroups T (d :: rest) = g :: gs' := by
    cases hg : chunkCSVGroups T (d :: rest) with
    | nil =>
      rw [chunkCSVGroups] at hg
      exact absurd hg (csvGo_ne_nil T rest [d] d.length)
    | cons g gs' => exact ⟨g, gs', rfl⟩
  refine ⟨unlines (hdr :: (d :: rest)), ?_, ?_⟩
  · rw [hchunk, joinCSVRun_eq, hgs]
    have hsg : splitLines (unlines (hdr :: g)) = hdr :: g := by
      refine splitLines_unlines _ ?_
      intro l hl
      rcases List.mem_cons.mp hl with hl | hl
      · exact hl ▸ hhdr
      · exact hglines g (hgs ▸ List.mem_cons_self g gs') l hl
    simp only [List.map_cons, joinCSVList, hsg, if_true, List.isEmpty_cons,
      Bool.and_false]
    rw [joinCSVList_skips_headers hdr hhdr gs'
      (fun x hx => hglines x (hgs ▸ List.mem_cons_of_mem g hx))]
    have hsum : d :: rest = g ++ gs'.flatten := by
      rw [← hflat, hgs]
      simp
    rw [hsum, show unlines (hdr :: (g ++ gs'.flatten)) =
      unlines (hdr :: g) ++ unlines gs'.flatten by
        rw [show hdr :: (g ++ gs'.flatten) = (hdr :: g) ++ gs'.flatten by simp,
          unlines_append]]
  · refine splitLines_unlines _ ?_
    intro l hl
    rcases List.mem_cons.mp hl with hl | hl
    · exact hl ▸ hhdr
    · exact hdls l hl

/-- C3 (code bug): when the part file for the current counter cannot be
opened for writing, `chunkFile` neither reports nor stops: the loop body
skips the read and the counter increment and re-runs the identical
iteration, so the operation never terminates for any fuel bound — it does
not report a failure and stop as the specification demands. -/
theorem chunkFile_part_open_failure_loops {α : Type} :
    ∀ (pre ext : List Char) (T fuel : Nat) (rem : List α) (c : Nat),
      chunkFileLoop pre ext T (fun _ => false) fuel rem false c = none := by
  intro pre ext T fuel
  induction fuel with
  | zero => intro rem c; rfl
  | succ fuel ih =>
    intro rem c
    rw [chunkFileLoop]
    simp only [Bool.false_eq_true, if_false]
    exact ih rem c

/-- C4 (amended): the binary chunker produces exactly `S / T + 1` parts —
`⌈S/T⌉` when `T` does not divide `S`, and one more (a trailing empty part)
when it does, the empty source included; every part group of the CSV
chunker has accumulated data size at most the threshold unless it consists
of a single data line. -/
theorem part_count_amended {α : Type} (path pre : List Char) (T : Nat)
    (src : List α) (hT : 1 ≤ T) :
    (∃ parts count, chunkFileRun path pre T src = some (parts, count) ∧
        parts.length = src.length / T + 1) ∧
      ∀ T2 : Nat, ∀ ds g, g ∈ chunkCSVGroups T2 ds →
        sumLen g ≤ T2 ∨ ∃ l, g = [l] := by
  constructor
  · refine ⟨chunkPartsN pre (extOf path) T src 1,
      1 + (chunkPartsN pre (extOf path) T src 1).length - 1, ?_, ?_⟩
    · rw [chunkFileRun,
        chunkFileLoop_spec pre (extOf path) T hT (src.length + 2) src 1 (Nat.le_refl _)]
      rfl
    · exact chunkPartsN_length pre (extOf path) T hT src.length src 1 (Nat.le_refl _)
  · intro T2 ds g hg
    cases ds with
    | nil => simp [chunkCSVGroups] at hg
    | cons d rest =>
      rw [chunkCSVGroups] at hg
      refine csvGo_bound T2 rest [d] d.length ?_ (Or.inr ⟨d, rfl⟩) g hg
      simp [sumLen]

/-- C4 (counterexample to the claim as stated): a 1-byte source chunked
with `T = 1` yields 2 part files, exceeding `⌈S/T⌉ = (S + T - 1)/T = 1` —
the final `read` of 0 bytes still creates an empty part before the eof bit
is seen. -/
theorem part_count_claim_cex :
    (chunkFileRun ([] : List Char) [] 1 ([0] : List Nat)).map
        (fun r => r.1.length) = some 2 ∧
      ¬(2 ≤ (1 + 1 - 1) / 1) := by
  constructor
  · rfl
  · decide

/-- C5: a data line whose length alone exceeds the threshold is placed
into a part of its own, immediately after the header (the part's content
is exactly the header line followed by that line); the chunker is total on
such input and no data line is dropped (the groups flatten back to the
original data lines). -/
theorem long_line_own_part (T : Nat) (src hdr l : List Char)
    (ds : List (List Char)) (hsplit : splitLines src = hdr :: ds)
    (hl : l ∈ ds) (hlong : T < l.length) :
    unlines [hdr, l] ∈ (chunkCSV T src).1 ∧
      (chunkCSVGroups T ds).flatten = ds := by
  refine ⟨?_, chunkCSVGroups_flatten T ds⟩
  obtain ⟨g, hg, hlg⟩ := List.mem_flatten.mp
    ((chunkCSVGroups_flatten T ds) ▸ hl)
  have hgl : g = [l] := by
    cases ds with
    | nil => simp at hl
    | cons d rest =>
      rw [chunkCSVGroups] at hg
      refine csvGo_long T rest [d] d.length ?_ ?_ g hg l hlg hlong
      · simp [sumLen]
      · intro x hx _
        simp only [List.mem_singleton] at hx
        rw [hx]
  have hmem : unlines (hdr :: g) ∈ (chunkCSV T src).1 := by
    rw [chunkCSV, hsplit]
    exact List.mem_map.mpr ⟨g, hg, rfl⟩
  rw [hgl] at hmem
  exact hmem

/-- C6 (amended): every part file `chunkCSV` writes is a sequence of
lines, each terminated by exactly one line feed and containing no line
feed itself; however, carriage returns are ordinary line content — the
embedding follows `std::getline`, which strips only the bare line feed —
so a CRLF-terminated source keeps its carriage returns. -/
theorem parts_lf_terminated (T : Nat) (src part : List Char)
    (hp : part ∈ (chunkCSV T src).1) :
    ∃ ls, ls ≠ [] ∧ part = unlines ls ∧ ∀ l ∈ ls, ('\n' : Char) ∉ l := by
  cases hsplit : splitLines src with
  | nil =>
    rw [chunkCSV, hsplit] at hp
    simp at hp
  | cons hdr ds =>
    rw [chunkCSV, hsplit] at hp
    obtain ⟨g, hg, rfl⟩ := List.mem_map.mp hp
    refine ⟨hdr :: g, by simp, rfl, ?_⟩
    intro l hl
    rcases List.mem_cons.mp hl with hl | hl
    · exact hl ▸ splitLines_no_newline src hdr
        (hsplit ▸ List.mem_cons_self hdr ds)
    · refine splitLines_no_newline src l (hsplit ▸ ?_)
      refine List.mem_cons_of_mem hdr ?_
      rw [← chunkCSVGroups_flatten T ds]
      exact List.mem_flatten.mpr ⟨g, hg, hl⟩

/-- C6 (counterexample to the claim as stated): the CRLF-terminated
source "h\r\na\r\n" produces a single part that still contains both
carriage returns — the line terminator written is a lone line feed, but
the carriage return from the source is not removed. -/
theorem crlf_not_normalized_cex :
    (chunkCSV 10 ['h', '\r', '\n', 'a', '\r', '\n']).1 =
        [['h', '\r', '\n', 'a', '\r', '\n']] ∧
      ('\r' : Char) ∈ (chunkCSV 10 ['h', '\r', '\n', 'a', '\r', '\n']).1.flatten := by
  constructor
  · rfl
  · decide

/-- C7: when the first missing part index is `k`, `joinFile` terminates
normally (reported as success) and its output is exactly the concatenation
of parts `1 .. k-1`; with `k = 1` the output is empty, and deleting part 2
of a 3-part set leaves only part 1's content. -/
theorem joinFile_stops_at_first_gap {α : Type} (disk : Nat → Option (List α))
    (f : Nat → List α) (k fuel : Nat) (hk : 1 ≤ k) (hfuel : k ≤ fuel)
    (hpresent : ∀ j, j + 1 < k → disk (j + 1) = some (f j))
    (hmiss : disk k = none) :
    joinFileLoop disk fuel 1 = some (((List.range (k - 1)).map f).flatten) := by
  refine joinFileLoop_gap (k - 1) disk f 1 fuel (by omega) ?_ ?_
  · intro j hj
    have := hpresent j (by omega)
    rwa [show (1 : Nat) + j = j + 1 by omega]
  · rwa [show (1 : Nat) + (k - 1) = k by omega]

/-- C8 (amended): provided every data line is non-empty, a new numbered
part is opened exactly when the current part has no data line yet or when
adding the line's length to the accumulated size would exceed the
threshold — the code's trigger `currentSize == 0` coincides with
"no data line written yet" only under that proviso. -/
theorem new_part_trigger_amended (T : Nat) (ds : List (List Char))
    (hne : ∀ l ∈ ds, l ≠ []) :
    chunkCSVGroups T ds = claimSpecGroups T ds := by
  cases ds with
  | nil => simp [chunkCSVGroups, claimSpecGroups]
  | cons d rest =>
    have hd1 : 1 ≤ d.length := by
      have := hne d (List.mem_cons_self d rest)
      cases d with
      | nil => exact absurd rfl this
      | cons a as => simp
    rw [chunkCSVGroups,
      csvGo_claimSpec T rest [d] d.length hd1
        (fun x hx => hne x (List.mem_cons_of_mem d hx)),
      claimSpecGroups]
    simp

/-- C8 (counterexample to the claim as stated): with threshold 10, header
followed by an empty data line and then "a", the code opens a second part
for "a" although the current part already holds a data line (the empty
one) and no overflow occurs: `currentSize` is still 0 after writing an
empty line. -/
theorem new_part_trigger_cex :
    (chunkCSVGroups 10 [[], ['a']]).length = 2 ∧
      chunkCSVGroups 10 [[], ['a']] ≠ claimSpecGroups 10 [[], ['a']] := by
  have h2 : claimSpecGroups 10 [[], ['a']] = [[[], ['a']]] := by
    simp [claimSpecGroups, claimTake]
  constructor
  · rfl
  · rw [h2]
    decide

/-- C9: a line-oriented source with at most a header line — no data lines,
or entirely empty — makes `chunkCSV` create no part files and report zero
files created. -/
theorem no_data_lines_no_parts (T : Nat) (src : List Char)
    (h : (splitLines src).tail = []) : chunkCSV T src = ([], 0) := by
  cases hsplit : splitLines src with
  | nil => rw [chunkCSV, hsplit]
  | cons hdr ds =>
    have hds : ds = [] := by rw [hsplit] at h; exact h
    subst hds
    rw [chunkCSV, hsplit]
    rfl

/-- C10: on an empty source that opens, `chunkFile` with any positive
chunk size writes exactly one zero-byte part, named with counter 1 and the
source path's extension, and reports one file created. -/
theorem empty_source_single_empty_part {α : Type} (path pre : List Char)
    (T : Nat) (hT : 1 ≤ T) :
    chunkFileRun path pre T ([] : List α) =
      some ([(partName pre 1 (extOf path), [])], 1) := by
  rw [chunkFileRun,
    chunkFileLoop_spec pre (extOf path) T hT (([] : List α).length + 2) [] 1
      (Nat.le_refl _)]
  rw [chunkPartsN, if_neg (by
    intro hcon
    have h1 := hcon.1
    simp only [List.length_nil, Nat.le_zero] at h1
    omega)]
  rfl

/-- Witness for C1 at the 3-byte source `[7, 8, 9]` with chunk size 2. -/
theorem binary_roundtrip_witness :
    ∃ parts count,
      chunkFileRun ['a', '.', 'b'] ['p'] 2 ([7, 8, 9] : List Nat) =
          some (parts, count) ∧
        joinFileRun (parts.map Prod.snd) = some [7, 8, 9] :=
  binary_roundtrip ['a', '.', 'b'] ['p'] 2 [7, 8, 9] (by decide) (by decide)

/-- Witness for C2: header "h", data lines "1,a" and "2,b", threshold 3. -/
theorem csv_roundtrip_witness :
    ∃ out,
      joinCSVRun (chunkCSV 3
          ['h', '\n', '1', ',', 'a', '\n', '2', ',', 'b', '\n']).1 = some out ∧
        splitLines out = [['h'], ['1', ',', 'a'], ['2', ',', 'b']] :=
  csv_roundtrip 3 ['h', '\n', '1', ',', 'a', '\n', '2', ',', 'b', '\n'] ['h']
    [['1', ',', 'a'], ['2', ',', 'b']] (by decide) (by decide) (by decide)

/-- Witness for C4 at the 3-byte source `[7, 8, 9]` with chunk size 2. -/
theorem part_count_amended_witness :
    (∃ parts count,
        chunkFileRun ['a', '.', 'b'] ['p'] 2 ([7, 8, 9] : List Nat) =
            some (parts, count) ∧
          parts.length = ([7, 8, 9] : List Nat).length / 2 + 1) ∧
      ∀ T2 : Nat, ∀ ds g, g ∈ chunkCSVGroups T2 ds →
        sumLen g ≤ T2 ∨ ∃ l, g = [l] :=
  part_count_amended ['a', '.', 'b'] ['p'] 2 [7, 8, 9] (by decide)

/-- Witness for C5: data line "abc" of length 3 against threshold 2. -/
theorem long_line_own_part_witness :
    unlines [['h'], ['a', 'b', 'c']] ∈
        (chunkCSV 2 ['h', '\n', 'a', 'b', 'c', '\n']).1 ∧
      (chunkCSVGroups 2 [['a', 'b', 'c']]).flatten = [['a', 'b', 'c']] :=
  long_line_own_part 2 ['h', '\n', 'a', 'b', 'c', '\n'] ['h'] ['a', 'b', 'c']
    [['a', 'b', 'c']] (by decide) (by decide) (by decide)

/-- Witness for C6 (amended) at the sole part of the source "h\na\n". -/
theorem parts_lf_terminated_witness :
    ∃ ls, ls ≠ [] ∧ (['h', '\n', 'a', '\n'] : List Char) = unlines ls ∧
      ∀ l ∈ ls, ('\n' : Char) ∉ l :=
  parts_lf_terminated 10 ['h', '\n', 'a', '\n'] ['h', '\n', 'a', '\n']
    (by decide)

/-- Witness for C7: a 3-part set with part 2 deleted joins to part 1's
content alone, and a set with no part 1 joins to empty output. -/
theorem joinFile_stops_at_first_gap_witness :
    joinFileLoop (fun i => if i = 1 then some ([1, 2] : List Nat)
        else if i = 3 then some [5] else none) 5 1 = some [1, 2] ∧
      joinFileLoop (fun _ => (none : Option (List Nat))) 3 1 = some [] :=
  ⟨(joinFile_stops_at_first_gap _ (fun _ => [1, 2]) 2 5 (by decide) (by decide)
      (fun j hj => by
        have hj0 : j = 0 := by omega
        subst hj0
        rfl) rfl).trans (by decide),
    (joinFile_stops_at_first_gap _ (fun _ => []) 1 3 (by decide) (by decide)
      (fun j hj => by omega) rfl).trans (by decide)⟩

/-- Witness for C8 (amended) on two non-empty data lines, threshold 3. -/
theorem new_part_trigger_amended_witness :
    chunkCSVGroups 3 [['1', ',', 'a'], ['2', ',', 'b']] =
      claimSpecGroups 3 [['1', ',', 'a'], ['2', ',', 'b']] :=
  new_part_trigger_amended 3 [['1', ',', 'a'], ['2', ',', 'b']] (by decide)

/-- Witness for C9 on the header-only source "h\n". -/
theorem no_data_lines_no_parts_witness :
    chunkCSV 5 ['h', '\n'] = ([], 0) :=
  no_data_lines_no_parts 5 ['h', '\n'] (by decide)

/-- Witness for C10 on an empty source at path "a.b", prefix "p". -/
theorem empty_source_single_empty_part_witness :
    chunkFileRun ['a', '.', 'b'] ['p'] 1 ([] : List Nat) =
      some ([(partName ['p'] 1 (extOf ['a', '.', 'b']), [])], 1) :=
  empty_source_single_empty_part ['a', '.', 'b'] ['p'] 1 (by decide)

end ChunkMerge
